import Mathlib

/-!
Verification of the `blackbox` container library: a strategy-selectable
container with three storage engines (ring-buffer FIFO queue, growable LIFO
stack, swap-remove random pool) behind a factory/configuration layer.

The Go sources are embedded shallowly:
  * slices become `List`, with Go's zero value modelled by `default` of an
    `Inhabited` instance (Go `make([]T, n)` is `List.replicate n default`);
  * `int` sizes and indices, which are provably non-negative, become `Nat`;
    the user-supplied `maxSize` (which may be negative and is compared with
    `> 0`) stays `Int`;
  * a Go method that can panic (index out of range on a reachable input)
    returns `Option`, with `none` modelling the panic;
  * the `math/rand` generator, which is library code outside this
    repository, is modelled as a deterministic stream of naturals fixed by
    the seed (see `Rng` and `mkRng`).
-/

namespace Blackbox

open scoped List

/-- The two error values of the library: `ErrEmptyBlackBox` and
`ErrBlackBoxFull` from the source. -/
inductive BoxErr
  | empty
  | full
deriving DecidableEq

/-- Retrieval strategies (`StrategyRandom`, `StrategyFIFO`, `StrategyLIFO`).
`random` is the zero value, as in the Go `iota` declaration. -/
inductive Strategy
  | random
  | fifo
  | lifo
deriving DecidableEq

/-- Constant `defaultInitialCapacity = 8` from the source. -/
def defaultInitialCapacity : Int := 8

/-- Constant `growthFactor = 2` from the source. -/
def growthFactor : Nat := 2

/-- Go's builtin `copy(dst, src)`: overwrite the first
`min (length src) (length dst)` elements of `dst` with those of `src`;
the result keeps the length of `dst`. -/
def goCopy {T : Type} (dst src : List T) : List T :=
  src.take dst.length ++ dst.drop (min src.length dst.length)

/-- One step of a linear congruential generator.  Stands in for the state
transition of the `math/rand` source, which is Go library code outside this
repository. -/
def lcgNext (s : Nat) : Nat :=
  (s * 1103515245 + 12345) % 2147483648

/-- A deterministic pseudo-random generator: an arbitrary fixed stream of
draws together with a position.  Every realisable draw sequence of
`math/rand` is some `stream`; quantifying over `Rng` therefore quantifies
over all generator behaviours. -/
structure Rng where
  stream : Nat → Nat
  pos : Nat

/-- Go's `rng.Intn(n)`: a draw in `[0, n)` (for `n > 0`), advancing the
generator state.  The engines only call it with `n > 0`. -/
def Rng.Intn (r : Rng) (n : Nat) : Nat × Rng :=
  (r.stream r.pos % n, { r with pos := r.pos + 1 })

/-- Injective encoding of an `int64` seed into a natural. -/
def intEnc (s : Int) : Nat :=
  if s < 0 then 2 * s.natAbs + 1 else 2 * s.natAbs

/-- Modelled from the spec: `rand.New(rand.NewSource(seed))` — the stdlib
seeded generator is not part of this repository; per the spec it is a
deterministic pseudo-random source fully determined by the seed.  Here it is
the iterated LCG stream starting from the encoded seed. -/
def mkRng (seed : Int) : Rng :=
  { stream := fun i => lcgNext^[i + 1] (intEnc seed), pos := 0 }

variable {T : Type} [Inhabited T]

/-! ### FIFO engine (`fifo.go`): ring buffer -/

/-- `fifoBox` from `fifo.go`. -/
structure fifoBox (T : Type) where
  items : List T
  head : Nat
  tail : Nat
  size : Nat
  maxSize : Int

/-- `NewFIFO(maxSize, capacity)`: `items = make([]T, capacity)`. -/
def NewFIFO (maxSize : Int) (capacity : Nat) : fifoBox T :=
  { items := List.replicate capacity default
    head := 0
    tail := 0
    size := 0
    maxSize := maxSize }

/-- The `newCapacity` computed at the top of `fifoBox.grow`: doubled, then
clamped to a positive `maxSize` when the doubling exceeds it. -/
def fifoBox.growCap (b : fifoBox T) : Nat :=
  let newCapacity0 := b.items.length * growthFactor
  if b.maxSize > 0 ∧ (newCapacity0 : Int) > b.maxSize then b.maxSize.toNat
  else newCapacity0

/-- `fifoBox.grow` from `fifo.go`: double the capacity (clamped to a positive
`maxSize`), copy the live range to the front of the new buffer (contiguous
branch when `head < tail`, two-part copy otherwise), reset `head = 0`,
`tail = size`. -/
def fifoBox.grow (b : fifoBox T) : fifoBox T :=
  let newCapacity := b.growCap
  let newItems0 : List T := List.replicate newCapacity default
  let newItems :=
    if b.head < b.tail then
      goCopy newItems0 ((b.items.drop b.head).take (b.tail - b.head))
    else
      let n := min newItems0.length (b.items.drop b.head).length
      let tmp := goCopy newItems0 (b.items.drop b.head)
      tmp.take n ++ goCopy (tmp.drop n) (b.items.take b.tail)
  { b with head := 0, tail := b.size, items := newItems }

/-- `fifoBox.Put`: full check, growth when `size >= len(items)`, write at
`tail`, advance `tail` modulo the capacity, increment `size`.  The result is
the new state paired with the returned error; `none` models the Go panic of
`b.items[b.tail] = item` when the buffer has length 0 (which really happens:
`NewFIFO(0, 0)` grows `0` to `0 * 2 = 0`). -/
def fifoBox.Put (b : fifoBox T) (item : T) : Option (fifoBox T × Option BoxErr) :=
  if b.maxSize > 0 ∧ (b.size : Int) ≥ b.maxSize then
    some (b, some BoxErr.full)
  else
    let b := if b.size ≥ b.items.length then b.grow else b
    if b.tail < b.items.length then
      some ({ b with
                items := b.items.set b.tail item
                tail := (b.tail + 1) % b.items.length
                size := b.size + 1 }, none)
    else
      none

/-- `fifoBox.Get`: empty check, read at `head`, clear the slot to the zero
value, advance `head` modulo the capacity, decrement `size`.  The index is in
range for every state satisfying the ring invariant, so the read is modelled
with `getD`. -/
def fifoBox.Get (b : fifoBox T) : fifoBox T × T × Option BoxErr :=
  if b.size = 0 then
    (b, default, some BoxErr.empty)
  else
    (({ b with
          items := b.items.set b.head default
          head := (b.head + 1) % b.items.length
          size := b.size - 1 } : fifoBox T),
     b.items.getD b.head default, none)

/-- `fifoBox.Peek`: read at `head` without mutation. -/
def fifoBox.Peek (b : fifoBox T) : T × Option BoxErr :=
  if b.size = 0 then (default, some BoxErr.empty)
  else (b.items.getD b.head default, none)

/-- `fifoBox.Size`. -/
def fifoBox.Size (b : fifoBox T) : Nat := b.size

/-- `fifoBox.MaxSize`. -/
def fifoBox.MaxSize (b : fifoBox T) : Int := b.maxSize

/-- `fifoBox.IsFull`. -/
def fifoBox.IsFull (b : fifoBox T) : Bool :=
  decide (b.maxSize > 0 ∧ (b.size : Int) ≥ b.maxSize)

/-- `fifoBox.IsEmpty`. -/
def fifoBox.IsEmpty (b : fifoBox T) : Bool :=
  decide (b.size = 0)

/-- The slot-clearing loop of `fifoBox.Clean`: set slot `(head + i) % len`
to the zero value for `i = 0, ..., n-1`.  (Go's `% len(b.items)` panics only
when the buffer has length 0 together with `size > 0`, a state excluded by
the ring invariant; Lean's total `%` makes the loop total.) -/
def cleanSlots (items : List T) (head : Nat) : Nat → List T
  | 0 => items
  | i + 1 => (cleanSlots items head i).set ((head + i) % items.length) default

/-- `fifoBox.Clean`: clear the live slots, reset `head`, `tail`, `size` to 0.
The backing buffer keeps its length. -/
def fifoBox.Clean (b : fifoBox T) : fifoBox T :=
  { b with items := cleanSlots b.items b.head b.size, head := 0, tail := 0, size := 0 }

/-- Modelled from the spec: `NewFIFOFrom(items, maxSize)` is called by
`NewFrom` and by the tests but its definition is not among the sources.  Per
§4.5 it defensively copies the items (insertion order preserved, `head = 0`)
and widens a requested maximum size smaller than the item count to the item
count (same widening rule as the `NewLIFOFrom` in the sources). -/
def NewFIFOFrom (items : List T) (maxSize : Int) : fifoBox T :=
  let maxSize :=
    if maxSize ≠ 0 ∧ maxSize < (items.length : Int) then (items.length : Int)
    else maxSize
  { items := items, head := 0, tail := 0, size := items.length, maxSize := maxSize }

/-! ### LIFO engine (`lifo.go`): growable stack -/

/-- `lifoBox` from `lifo.go`. -/
structure lifoBox (T : Type) where
  items : List T
  maxSize : Int

/-- `NewLIFO(maxSize, capacity)`: `items = make([]T, 0, capacity)` — the
capacity is an allocation hint with no observable effect on a list model. -/
def NewLIFO (maxSize : Int) (capacity : Nat) : lifoBox T :=
  { items := [], maxSize := maxSize }

/-- `NewLIFOFrom(items, maxSize)`: copy the items; widen a non-zero `maxSize`
smaller than the item count to the item count. -/
def NewLIFOFrom (items : List T) (maxSize : Int) : lifoBox T :=
  let maxSize :=
    if maxSize ≠ 0 ∧ maxSize < (items.length : Int) then (items.length : Int)
    else maxSize
  { items := items, maxSize := maxSize }

/-- `lifoBox.Put`: full check, then append at the tail. -/
def lifoBox.Put (b : lifoBox T) (item : T) : lifoBox T × Option BoxErr :=
  if b.maxSize > 0 ∧ (b.items.length : Int) ≥ b.maxSize then
    (b, some BoxErr.full)
  else
    ({ b with items := b.items ++ [item] }, none)

/-- `lifoBox.Get`: empty check, then remove and return the last element. -/
def lifoBox.Get (b : lifoBox T) : lifoBox T × T × Option BoxErr :=
  if b.items.length = 0 then
    (b, default, some BoxErr.empty)
  else
    ({ b with items := b.items.dropLast }, b.items.getLastD default, none)

/-- `lifoBox.Peek`: return the last element without removal. -/
def lifoBox.Peek (b : lifoBox T) : T × Option BoxErr :=
  if b.items.length = 0 then (default, some BoxErr.empty)
  else (b.items.getLastD default, none)

/-- `lifoBox.Size`. -/
def lifoBox.Size (b : lifoBox T) : Nat := b.items.length

/-- `lifoBox.MaxSize`. -/
def lifoBox.MaxSize (b : lifoBox T) : Int := b.maxSize

/-- `lifoBox.IsFull`. -/
def lifoBox.IsFull (b : lifoBox T) : Bool :=
  decide (b.maxSize > 0 ∧ (b.items.length : Int) ≥ b.maxSize)

/-- `lifoBox.IsEmpty`. -/
def lifoBox.IsEmpty (b : lifoBox T) : Bool :=
  decide (b.items.length = 0)

/-- `lifoBox.Clean`: `b.items = b.items[:0]`. -/
def lifoBox.Clean (b : lifoBox T) : lifoBox T :=
  { b with items := b.items.take 0 }

/-- `lifoBox.Items`: defensive copy of the live items. -/
def lifoBox.Items (b : lifoBox T) : List T := b.items

/-! ### Random-pool engine (`randomBox`): swap-remove -/

/-- `randomBox`. -/
structure randomBox (T : Type) where
  items : List T
  rng : Rng
  maxSize : Int

/-- `NewRandom(maxSize, capacity, rng)`. -/
def NewRandom (maxSize : Int) (capacity : Nat) (rng : Rng) : randomBox T :=
  { items := [], rng := rng, maxSize := maxSize }

/-- Modelled from the spec: `NewRandomFrom(items, maxSize, rng)` is called by
`NewFrom` and by the tests but its definition is not among the sources.  Per
§4.5 it copies the items and widens a requested maximum size smaller than the
item count (same widening rule as the `NewLIFOFrom` in the sources). -/
def NewRandomFrom (items : List T) (maxSize : Int) (rng : Rng) : randomBox T :=
  let maxSize :=
    if maxSize ≠ 0 ∧ maxSize < (items.length : Int) then (items.length : Int)
    else maxSize
  { items := items, rng := rng, maxSize := maxSize }

/-- `randomBox.Put`: full check, then append (the generator is not used). -/
def randomBox.Put (b : randomBox T) (item : T) : randomBox T × Option BoxErr :=
  if b.maxSize > 0 ∧ (b.items.length : Int) ≥ b.maxSize then
    (b, some BoxErr.full)
  else
    ({ b with items := b.items ++ [item] }, none)

/-- `randomBox.Get`: empty check; draw `idx := rng.Intn(len(items))`,
capture `items[idx]`, overwrite slot `idx` with the last element, truncate
by one (`items[:lastIdx]`), return the captured item.  The drawn index is in
range, so reads are modelled with `getD`.  The advanced generator is part of
the returned state (the Go receiver holds the `rand.Rand` by pointer). -/
def randomBox.Get (b : randomBox T) : randomBox T × T × Option BoxErr :=
  if b.items.length = 0 then
    (b, default, some BoxErr.empty)
  else
    let p := b.rng.Intn b.items.length
    let lastIdx := b.items.length - 1
    (({ b with
          items := (b.items.set p.1 (b.items.getD lastIdx default)).take lastIdx
          rng := p.2 } : randomBox T),
     b.items.getD p.1 default, none)

/-- `randomBox.Peek`: empty check; draw an index and return that item
without removing it.  The draw advances the shared generator, so the
returned state carries the new generator position. -/
def randomBox.Peek (b : randomBox T) : randomBox T × T × Option BoxErr :=
  if b.items.length = 0 then
    (b, default, some BoxErr.empty)
  else
    let p := b.rng.Intn b.items.length
    (({ b with rng := p.2 } : randomBox T), b.items.getD p.1 default, none)

/-- `randomBox.Size`. -/
def randomBox.Size (b : randomBox T) : Nat := b.items.length

/-- `randomBox.MaxSize`. -/
def randomBox.MaxSize (b : randomBox T) : Int := b.maxSize

/-- `randomBox.IsFull`. -/
def randomBox.IsFull (b : randomBox T) : Bool :=
  decide (b.maxSize > 0 ∧ (b.items.length : Int) ≥ b.maxSize)

/-- `randomBox.IsEmpty`. -/
def randomBox.IsEmpty (b : randomBox T) : Bool :=
  decide (b.items.length = 0)

/-- `randomBox.Clean`: `b.items = b.items[:0]`. -/
def randomBox.Clean (b : randomBox T) : randomBox T :=
  { b with items := b.items.take 0 }

/-! ### Abstraction, invariant and operation runners -/

/-- The live items of a ring-buffer state, in insertion order: the `size`
slots starting at `head`, wrapping modulo the capacity. -/
def fifoBox.toList (b : fifoBox T) : List T :=
  (List.range b.size).map fun i => b.items.getD ((b.head + i) % b.items.length) default

/-- The ring-buffer invariant of the queue store: positive capacity, `head`
and `tail` within range, `size` at most the capacity, and `tail` the write
position `size` slots past `head`. -/
def fifoBox.Inv (b : fifoBox T) : Prop :=
  0 < b.items.length ∧ b.head < b.items.length ∧ b.tail < b.items.length ∧
    b.size ≤ b.items.length ∧ b.tail = (b.head + b.size) % b.items.length

instance (b : fifoBox T) : Decidable b.Inv := by
  unfold fifoBox.Inv
  infer_instance

/-- Run a sequence of `Put`s; `none` if any of them panics or returns an
error. -/
def fifoPutAll (b : fifoBox T) : List T → Option (fifoBox T)
  | [] => some b
  | d :: ds =>
    match b.Put d with
    | some (b', none) => fifoPutAll b' ds
    | _ => none

/-- Run `n` `Get`s collecting the returned items; `none` if any of them
returns an error. -/
def fifoGetN (b : fifoBox T) : Nat → Option (List T × fifoBox T)
  | 0 => some ([], b)
  | n + 1 =>
    match b.Get with
    | (b', x, none) => (fifoGetN b' n).map fun p => (x :: p.1, p.2)
    | (_, _, some _) => none

/-- Run a sequence of `Put`s on a stack; `none` on any error. -/
def lifoPutAll (b : lifoBox T) : List T → Option (lifoBox T)
  | [] => some b
  | d :: ds =>
    match b.Put d with
    | (b', none) => lifoPutAll b' ds
    | (_, some _) => none

/-- Run `n` `Get`s on a stack collecting the returned items; `none` on any
error. -/
def lifoGetN (b : lifoBox T) : Nat → Option (List T × lifoBox T)
  | 0 => some ([], b)
  | n + 1 =>
    match b.Get with
    | (b', x, none) => (lifoGetN b' n).map fun p => (x :: p.1, p.2)
    | (_, _, some _) => none

/-- Run a sequence of `Put`s on a random pool; `none` on any error. -/
def randomPutAll (b : randomBox T) : List T → Option (randomBox T)
  | [] => some b
  | d :: ds =>
    match b.Put d with
    | (b', none) => randomPutAll b' ds
    | (_, some _) => none

/-- Run `n` `Get`s on a random pool collecting the returned items; `none` on
any error. -/
def randomGetN (b : randomBox T) : Nat → Option (List T × randomBox T)
  | 0 => some ([], b)
  | n + 1 =>
    match b.Get with
    | (b', x, none) => (randomGetN b' n).map fun p => (x :: p.1, p.2)
    | (_, _, some _) => none

/-- Run `n` `Get`s on a random pool, recording every outcome (item and
error) — the removal sequence observed by the caller. -/
def randomGets (b : randomBox T) : Nat → List (T × Option BoxErr)
  | 0 => []
  | n + 1 =>
    let r := b.Get
    (r.2.1, r.2.2) :: randomGets r.1 n

/-! ### Factory / configuration layer (`concurrent.go`) -/

/-- The `config` struct. -/
structure GoConfig where
  strategy : Strategy
  maxSize : Int
  initialCapacity : Int
  seed : Int
  useSeed : Bool
  useMaxSize : Bool

/-- `WithStrategy`. -/
def WithStrategy (strategy : Strategy) : GoConfig → GoConfig :=
  fun c => { c with strategy := strategy }

/-- `WithMaxSize`. -/
def WithMaxSize (size : Int) : GoConfig → GoConfig :=
  fun c => { c with maxSize := size, useMaxSize := true }

/-- `WithSeed`. -/
def WithSeed (seed : Int) : GoConfig → GoConfig :=
  fun c => { c with seed := seed, useSeed := true }

/-- `WithInitialCapacity`: only a positive capacity is recorded. -/
def WithInitialCapacity (capacity : Int) : GoConfig → GoConfig :=
  fun c => if capacity > 0 then { c with initialCapacity := capacity } else c

/-- `parseOptions`: fold the options over the zero-valued config, then
coerce a zero initial capacity to `defaultInitialCapacity`. -/
def parseOptions (opts : List (GoConfig → GoConfig)) : GoConfig :=
  let cfg := opts.foldl (fun c opt => opt c)
    { strategy := Strategy.random, maxSize := 0, initialCapacity := 0
      seed := 0, useSeed := false, useMaxSize := false }
  if cfg.initialCapacity = 0 then
    { cfg with initialCapacity := defaultInitialCapacity }
  else cfg

/-- The engine chosen by the factory: one of the three concrete boxes. -/
inductive AnyBox (T : Type)
  | fifo (b : fifoBox T)
  | lifo (b : lifoBox T)
  | random (b : randomBox T)

/-- `New(opts...)`: dispatch on the configured strategy.  `timeRng` is the
time-seeded generator the Go code builds when no seed option was given; it
is an input of the model because the wall clock is. -/
def New (opts : List (GoConfig → GoConfig)) (timeRng : Rng) : AnyBox T :=
  let cfg := parseOptions opts
  match cfg.strategy with
  | Strategy.fifo => AnyBox.fifo (NewFIFO cfg.maxSize cfg.initialCapacity.toNat)
  | Strategy.lifo => AnyBox.lifo (NewLIFO cfg.maxSize cfg.initialCapacity.toNat)
  | Strategy.random =>
      let rng := if cfg.useSeed then mkRng cfg.seed else timeRng
      AnyBox.random (NewRandom cfg.maxSize cfg.initialCapacity.toNat rng)

/-- `NewFrom(data, opts...)`: widen a positive configured maximum size that
is smaller than the data length, then dispatch to the per-strategy
constructors. -/
def NewFrom (data : List T) (opts : List (GoConfig → GoConfig)) (timeRng : Rng) :
    AnyBox T :=
  let cfg := parseOptions opts
  let cfg :=
    if cfg.maxSize > 0 ∧ cfg.maxSize < (data.length : Int) then
      { cfg with maxSize := (data.length : Int) }
    else cfg
  match cfg.strategy with
  | Strategy.fifo => AnyBox.fifo (NewFIFOFrom data cfg.maxSize)
  | Strategy.lifo => AnyBox.lifo (NewLIFOFrom data cfg.maxSize)
  | Strategy.random =>
      let rng := if cfg.useSeed then mkRng cfg.seed else timeRng
      AnyBox.random (NewRandomFrom data cfg.maxSize rng)

/-- Configured maximum size of a factory-built engine. -/
def AnyBox.MaxSize : AnyBox T → Int
  | .fifo b => b.MaxSize
  | .lifo b => b.MaxSize
  | .random b => b.MaxSize

/-- Logical size of a factory-built engine. -/
def AnyBox.Size : AnyBox T → Nat
  | .fifo b => b.Size
  | .lifo b => b.Size
  | .random b => b.Size

/-- The live items of a factory-built engine, in storage order (for the
queue: linearised from `head`). -/
def AnyBox.liveItems : AnyBox T → List T
  | .fifo b => b.toList
  | .lifo b => b.items
  | .random b => b.items

/-! ### Basic lemmas -/

theorem goCopy_length (dst src : List T) : (goCopy dst src).length = dst.length := by
  simp [goCopy]
  omega

theorem goCopy_of_le {dst src : List T} (h : src.length ≤ dst.length) :
    goCopy dst src = src ++ dst.drop src.length := by
  simp [goCopy, List.take_of_length_le h, Nat.min_eq_left h]

theorem drop_replicate (a : T) (m n : Nat) :
    (List.replicate m a).drop n = List.replicate (m - n) a := by
  induction n generalizing m with
  | zero => simp
  | succ n ih =>
    cases m with
    | zero => simp
    | succ m =>
      rw [List.replicate_succ, List.drop_succ_cons, ih m]
      congr 1
      omega

theorem cleanSlots_length (items : List T) (head n : Nat) :
    (cleanSlots items head n).length = items.length := by
  induction n with
  | zero => rfl
  | succ n ih => simp [cleanSlots, ih]

theorem toList_length (b : fifoBox T) : b.toList.length = b.size := by
  simp [fifoBox.toList]

theorem toList_nil (b : fifoBox T) (h : b.size = 0) : b.toList = [] := by
  simp [fifoBox.toList, h]

theorem mod_ne_of_ne {len i j : Nat} (head : Nat) (hi : i < len) (hj : j < len)
    (hne : i ≠ j) : (head + i) % len ≠ (head + j) % len := by
  intro h
  have h2 : i ≡ j [MOD len] := Nat.ModEq.add_left_cancel' head h
  rw [Nat.ModEq, Nat.mod_eq_of_lt hi, Nat.mod_eq_of_lt hj] at h2
  exact hne h2

theorem NewFIFO_Inv (maxSize : Int) (c : Nat) (hc : 0 < c) :
    (NewFIFO (T := T) maxSize c).Inv := by
  simp [NewFIFO, fifoBox.Inv, hc]

theorem NewFIFO_toList (maxSize : Int) (c : Nat) :
    (NewFIFO (T := T) maxSize c).toList = [] := rfl

/-! ### The growth step -/

theorem grow_fields (b : fifoBox T) :
    b.grow.head = 0 ∧ b.grow.tail = b.size ∧ b.grow.size = b.size ∧
      b.grow.maxSize = b.maxSize := by
  simp [fifoBox.grow]

theorem grow_spec {b : fifoBox T} (hInv : b.Inv) (hsz : b.size = b.items.length)
    (hroom : ¬(b.maxSize > 0 ∧ (b.size : Int) ≥ b.maxSize)) :
    b.grow.Inv ∧ b.grow.toList = b.toList ∧ b.grow.size = b.size ∧
      b.grow.maxSize = b.maxSize ∧ b.size < b.grow.items.length := by
  obtain ⟨hlen, hhead, htail, hsle, hlink⟩ := hInv
  have hhead_le : b.head ≤ b.items.length := Nat.le_of_lt hhead
  have htl_eq : b.tail = b.head := by
    rw [hlink, hsz, Nat.add_mod_right]
    exact Nat.mod_eq_of_lt hhead
  have hcapgt : b.items.length < b.growCap := by
    unfold fifoBox.growCap
    by_cases hc : b.maxSize > 0 ∧ ((b.items.length * growthFactor : Nat) : Int) > b.maxSize
    · rw [if_pos hc]
      have h1 : ¬ ((b.size : Int) ≥ b.maxSize) := fun hge => hroom ⟨hc.1, hge⟩
      push_neg at h1
      rw [hsz] at h1
      omega
    · rw [if_neg hc]
      simp only [growthFactor]
      omega
  have hitems : b.grow.items =
      b.items.drop b.head ++ (b.items.take b.head ++
        List.replicate (b.growCap - b.items.length) default) := by
    unfold fifoBox.grow
    dsimp only
    rw [if_neg (by rw [htl_eq]; exact Nat.lt_irrefl _)]
    rw [goCopy_of_le (by simp; omega)]
    rw [drop_replicate]
    rw [List.take_left' (by simp; omega), List.drop_left' (by simp; omega)]
    rw [htl_eq]
    rw [goCopy_of_le (by simp; omega)]
    rw [drop_replicate]
    simp only [List.length_drop, List.length_take]
    congr 3
    omega
  have hlen' : b.grow.items.length = b.growCap := by
    rw [hitems]
    simp
    omega
  obtain ⟨gh, gt, gs, gm⟩ := grow_fields b
  have hszlt : b.size < b.grow.items.length := by rw [hlen', ← hsz] at *; omega
  refine ⟨⟨?_, ?_, ?_, ?_, ?_⟩, ?_, gs, gm, hszlt⟩
  · omega
  · rw [gh]; omega
  · rw [gt]; exact hszlt
  · rw [gs]; omega
  · rw [gt, gh, gs, Nat.zero_add, Nat.mod_eq_of_lt hszlt]
  · apply List.ext_getElem
    · simp [toList_length, gs]
    · intro i h1 h2
      rw [toList_length, gs] at h1
      simp only [fifoBox.toList, List.getElem_map, List.getElem_range]
      rw [gh, hitems]
      have hilen : i < b.items.length := by omega
      have hiC : i < b.growCap := by omega
      rw [Nat.zero_add]
      have hmod : i % (b.items.drop b.head ++ (b.items.take b.head ++
          List.replicate (b.growCap - b.items.length) default)).length = i := by
        apply Nat.mod_eq_of_lt
        simp
        omega
      rw [hmod]
      simp only [List.getD_eq_getElem?_getD]
      by_cases hcase : b.head + i < b.items.length
      · rw [List.getElem?_append_left (by simp; omega)]
        rw [List.getElem?_drop]
        rw [Nat.mod_eq_of_lt hcase]
      · rw [List.getElem?_append_right (by simp; omega)]
        rw [List.length_drop]
        rw [List.getElem?_append_left (by simp; omega)]
        rw [List.getElem?_take_of_lt (by omega)]
        have hsub : (b.head + i) % b.items.length = i - (b.items.length - b.head) := by
          rw [Nat.mod_eq_sub_mod (by omega)]
          rw [Nat.mod_eq_of_lt (by omega)]
          omega
        rw [hsub]

/-! ### Put and Get -/

theorem put_write {b : fifoBox T} (hInv : b.Inv) (hroom : b.size < b.items.length)
    (x : T) :
    (fifoBox.mk (b.items.set b.tail x) b.head ((b.tail + 1) % b.items.length)
        (b.size + 1) b.maxSize).Inv ∧
      (fifoBox.mk (b.items.set b.tail x) b.head ((b.tail + 1) % b.items.length)
          (b.size + 1) b.maxSize).toList = b.toList ++ [x] := by
  obtain ⟨hlen, hhead, htail, hsle, hlink⟩ := hInv
  constructor
  · refine ⟨by simp [hlen], by simp [hhead], ?_, by simp; omega, ?_⟩
    · simp only [List.length_set]
      exact Nat.mod_lt _ hlen
    · simp only [List.length_set]
      rw [hlink, Nat.mod_add_mod, Nat.add_assoc]
  · unfold fifoBox.toList
    simp only [List.length_set]
    rw [List.range_succ, List.map_append]
    congr 1
    · apply List.map_congr_left
      intro i hi
      rw [List.mem_range] at hi
      simp only [List.getD_eq_getElem?_getD]
      rw [List.getElem?_set_ne]
      rw [hlink]
      exact mod_ne_of_ne b.head (by omega) (by omega) (by omega)
    · simp only [List.map_cons, List.map_nil]
      rw [← hlink]
      simp only [List.getD_eq_getElem?_getD]
      rw [List.getElem?_set_self htail]
      rfl

theorem Put_full {b : fifoBox T} (x : T)
    (h : b.maxSize > 0 ∧ (b.size : Int) ≥ b.maxSize) :
    b.Put x = some (b, some BoxErr.full) := by
  unfold fifoBox.Put
  rw [if_pos h]

theorem Put_ok {b : fifoBox T} (hInv : b.Inv) (x : T)
    (hroom : ¬(b.maxSize > 0 ∧ (b.size : Int) ≥ b.maxSize)) :
    ∃ b', b.Put x = some (b', none) ∧ b'.Inv ∧ b'.toList = b.toList ++ [x] ∧
      b'.size = b.size + 1 ∧ b'.maxSize = b.maxSize := by
  unfold fifoBox.Put
  rw [if_neg hroom]
  dsimp only
  by_cases hg : b.size ≥ b.items.length
  · rw [if_pos hg]
    have hsz : b.size = b.items.length := Nat.le_antisymm hInv.2.2.2.1 hg
    obtain ⟨gInv, gList, gs, gm, glt⟩ := grow_spec hInv hsz hroom
    rw [if_pos gInv.2.2.1]
    obtain ⟨hInv', hList'⟩ := put_write gInv (by rw [gs]; exact glt) x
    exact ⟨_, rfl, hInv', by rw [hList', gList], by simp [gs], gm⟩
  · rw [if_neg hg]
    push_neg at hg
    rw [if_pos hInv.2.2.1]
    obtain ⟨hInv', hList'⟩ := put_write hInv hg x
    exact ⟨_, rfl, hInv', hList', rfl, rfl⟩

theorem Get_ok {b : fifoBox T} (hInv : b.Inv) (hsz : b.size ≠ 0) :
    ∃ x b', b.Get = (b', x, none) ∧ b'.Inv ∧ b.toList = x :: b'.toList ∧
      b'.size = b.size - 1 ∧ b'.maxSize = b.maxSize ∧
      b'.items.length = b.items.length := by
  obtain ⟨hlen, hhead, htail, hsle, hlink⟩ := hInv
  unfold fifoBox.Get
  rw [if_neg hsz]
  refine ⟨_, _, rfl, ⟨by simp [hlen], ?_, by simp [htail], by simp; omega, ?_⟩,
    ?_, rfl, rfl, by simp⟩
  · simp only [List.length_set]
    exact Nat.mod_lt _ hlen
  · simp only [List.length_set]
    rw [hlink, Nat.mod_add_mod]
    congr 1
    omega
  · unfold fifoBox.toList
    simp only [List.length_set]
    obtain ⟨k, hk⟩ : ∃ k, b.size = k + 1 := ⟨b.size - 1, by omega⟩
    rw [hk]
    rw [List.range_succ_eq_map]
    simp only [List.map_cons, List.map_map, Nat.add_sub_cancel]
    congr 1
    · simp [Nat.mod_eq_of_lt hhead]
    · apply List.map_congr_left
      intro i hi
      rw [List.mem_range] at hi
      simp only [Function.comp, List.getD_eq_getElem?_getD]
      rw [Nat.mod_add_mod]
      rw [List.getElem?_set_ne]
      · congr 2
        · congr 1
          omega
      · rw [Nat.add_assoc]
        have := mod_ne_of_ne (i := 0) (j := 1 + i) b.head hlen
          (by omega) (by omega)
        simpa [Nat.mod_eq_of_lt hhead] using this

theorem fifoPutAll_ok (ds : List T) : ∀ (b : fifoBox T), b.Inv → b.maxSize = 0 →
    ∃ b', fifoPutAll b ds = some b' ∧ b'.Inv ∧ b'.maxSize = 0 ∧
      b'.toList = b.toList ++ ds := by
  induction ds with
  | nil =>
    intro b hInv hm
    exact ⟨b, rfl, hInv, hm, by simp⟩
  | cons d ds ih =>
    intro b hInv hm
    obtain ⟨b1, hput, hInv1, hList1, hs1, hm1⟩ := Put_ok hInv d (by rw [hm]; simp)
    obtain ⟨b', hrec, hInv', hm', hList'⟩ := ih b1 hInv1 (hm1.trans hm)
    refine ⟨b', ?_, hInv', hm', ?_⟩
    · simp only [fifoPutAll, hput]
      exact hrec
    · rw [hList', hList1]
      simp

theorem fifoGetN_ok (n : Nat) : ∀ (b : fifoBox T), b.Inv → n ≤ b.size →
    ∃ b', fifoGetN b n = some (b.toList.take n, b') ∧ b'.Inv ∧
      b'.size = b.size - n ∧ b'.toList = b.toList.drop n ∧
      b'.maxSize = b.maxSize := by
  induction n with
  | zero =>
    intro b hInv _
    exact ⟨b, rfl, hInv, by simp, by simp, rfl⟩
  | succ n ih =>
    intro b hInv hle
    obtain ⟨x, b1, hget, hInv1, hcons, hs1, hm1, _⟩ := Get_ok hInv (by omega)
    obtain ⟨b', hrec, hInv', hs', hList', hm'⟩ := ih b1 hInv1 (by omega)
    refine ⟨b', ?_, hInv', by omega, ?_, hm'.trans hm1⟩
    · simp only [fifoGetN, hget, hrec]
      rw [hcons]
      rfl
    · rw [hcons, hList']
      rfl

/-! ### Stack lemmas -/

theorem lifoPutAll_ok (ds : List T) : ∀ (b : lifoBox T), b.maxSize = 0 →
    ∃ b', lifoPutAll b ds = some b' ∧ b'.items = b.items ++ ds ∧
      b'.maxSize = 0 := by
  induction ds with
  | nil =>
    intro b hm
    exact ⟨b, rfl, by simp, hm⟩
  | cons d ds ih =>
    intro b hm
    have hput : b.Put d = ({ b with items := b.items ++ [d] }, none) := by
      unfold lifoBox.Put
      rw [if_neg (by rw [hm]; simp)]
    obtain ⟨b', hrec, hi, hm'⟩ := ih { b with items := b.items ++ [d] } hm
    refine ⟨b', ?_, by rw [hi]; simp, hm'⟩
    simp only [lifoPutAll, hput]
    exact hrec

theorem lifoGetN_items (l : List T) : ∀ (m : Int),
    ∃ b', lifoGetN (lifoBox.mk l m) l.length = some (l.reverse, b') ∧
      b'.items = [] ∧ b'.maxSize = m := by
  induction l using List.reverseRecOn with
  | nil =>
    intro m
    exact ⟨⟨[], m⟩, rfl, rfl, rfl⟩
  | append_singleton l a ih =>
    intro m
    obtain ⟨b', hrec, hi, hm⟩ := ih m
    refine ⟨b', ?_, hi, hm⟩
    have hlen : (l ++ [a]).length = l.length + 1 := by simp
    rw [hlen]
    have hget : (lifoBox.mk (l ++ [a]) m).Get = (lifoBox.mk l m, a, none) := by
      unfold lifoBox.Get
      rw [if_neg (by simp)]
      simp [List.dropLast_concat, List.getLastD_concat]
    simp only [lifoGetN, hget, hrec]
    simp [List.reverse_append]

/-! ### Random-pool lemmas -/

theorem randomPutAll_ok (ds : List T) : ∀ (b : randomBox T), b.maxSize = 0 →
    ∃ b', randomPutAll b ds = some b' ∧ b'.items = b.items ++ ds ∧
      b'.maxSize = 0 ∧ b'.rng = b.rng := by
  induction ds with
  | nil =>
    intro b hm
    exact ⟨b, rfl, by simp, hm, rfl⟩
  | cons d ds ih =>
    intro b hm
    have hput : b.Put d = ({ b with items := b.items ++ [d] }, none) := by
      unfold randomBox.Put
      rw [if_neg (by rw [hm]; simp)]
    obtain ⟨b', hrec, hi, hm', hr'⟩ := ih { b with items := b.items ++ [d] } hm
    refine ⟨b', ?_, by rw [hi]; simp, hm', hr'⟩
    simp only [randomPutAll, hput]
    exact hrec

theorem swapRemove_perm (l : List T) (i : Nat) (hi : i < l.length) :
    l.getD i default ::
        (l.set i (l.getD (l.length - 1) default)).take (l.length - 1) ~ l := by
  rcases List.eq_nil_or_concat l with rfl | ⟨l', a, rfl⟩
  · simp at hi
  · simp only [List.concat_eq_append] at *
    have hlen : (l' ++ [a]).length = l'.length + 1 := by simp
    have hlast : (l' ++ [a]).getD (((l' ++ [a]).length) - 1) default = a := by
      rw [hlen]
      simp [List.getD_eq_getElem?_getD, List.getElem?_append_right]
    rw [hlast]
    rw [hlen] at hi ⊢
    simp only [Nat.add_sub_cancel]
    by_cases hcase : i < l'.length
    · have hgd : (l' ++ [a]).getD i default = l'.getD i default := by
        simp [List.getD_eq_getElem?_getD, List.getElem?_append_left hcase]
      rw [hgd, List.set_append_left _ _ hcase]
      rw [List.take_left' (by simp)]
      rw [List.set_eq_take_cons_drop _ hcase]
      have hx : l'.getD i default = l'[i] := by
        simp [List.getD_eq_getElem?_getD, List.getElem?_eq_getElem hcase]
      rw [hx]
      have hdecomp : l'.take i ++ l'[i] :: l'.drop (i + 1) = l' := by
        rw [List.getElem_cons_drop]
        exact List.take_append_drop i l'
      have p1 : l'.take i ++ a :: l'.drop (i + 1) ~
          a :: (l'.take i ++ l'.drop (i + 1)) := List.perm_middle
      have p2 : l'[i] :: a :: (l'.take i ++ l'.drop (i + 1)) ~
          a :: l'[i] :: (l'.take i ++ l'.drop (i + 1)) := List.Perm.swap a l'[i] _
      have p3 : l'[i] :: (l'.take i ++ l'.drop (i + 1)) ~
          l'.take i ++ l'[i] :: l'.drop (i + 1) := List.perm_middle.symm
      calc l'[i] :: (l'.take i ++ a :: l'.drop (i + 1))
          ~ l'[i] :: (a :: (l'.take i ++ l'.drop (i + 1))) := p1.cons l'[i]
        _ ~ a :: l'[i] :: (l'.take i ++ l'.drop (i + 1)) := p2
        _ ~ a :: (l'.take i ++ l'[i] :: l'.drop (i + 1)) := p3.cons a
        _ = a :: l' := by rw [hdecomp]
        _ ~ l' ++ [a] := (List.perm_append_singleton a l').symm
    · have hie : i = l'.length := by omega
      subst hie
      have hgd : (l' ++ [a]).getD l'.length default = a := by
        simp [List.getD_eq_getElem?_getD, List.getElem?_append_right]
      rw [hgd, List.set_append_right _ _ (Nat.le_refl _)]
      simp only [Nat.sub_self, List.set_cons_zero]
      rw [List.take_left]
      exact (List.perm_append_singleton a l').symm

theorem randomGetN_perm (n : Nat) : ∀ (b : randomBox T), b.items.length = n →
    ∃ outs b', randomGetN b n = some (outs, b') ∧ outs ~ b.items ∧
      b'.items = [] ∧ b'.maxSize = b.maxSize := by
  induction n with
  | zero =>
    intro b hb
    rw [List.length_eq_zero] at hb
    exact ⟨[], b, rfl, by rw [hb], hb, rfl⟩
  | succ n ih =>
    intro b hb
    have hne : ¬ b.items.length = 0 := by omega
    have hget : b.Get =
        ({ b with
             items := (b.items.set ((b.rng.Intn b.items.length).1)
                 (b.items.getD (b.items.length - 1) default)).take
                 (b.items.length - 1)
             rng := (b.rng.Intn b.items.length).2 },
         b.items.getD ((b.rng.Intn b.items.length).1) default, none) := by
      unfold randomBox.Get
      rw [if_neg hne]
    have hidx : (b.rng.Intn b.items.length).1 < b.items.length := by
      unfold Rng.Intn
      exact Nat.mod_lt _ (by omega)
    obtain ⟨outs, b', hrec, hperm, hi, hm⟩ := ih
      { b with
          items := (b.items.set ((b.rng.Intn b.items.length).1)
              (b.items.getD (b.items.length - 1) default)).take
              (b.items.length - 1)
          rng := (b.rng.Intn b.items.length).2 }
      (by simp; omega)
    refine ⟨b.items.getD ((b.rng.Intn b.items.length).1) default :: outs, b',
      ?_, ?_, hi, hm⟩
    · simp only [randomGetN, hget, hrec]
      rfl
    · exact (hperm.cons _).trans (swapRemove_perm b.items _ hidx)

theorem NewFIFOFrom_toList (l : List T) (m : Int) :
    (NewFIFOFrom l m).toList = l := by
  unfold NewFIFOFrom fifoBox.toList
  dsimp only
  apply List.ext_getElem
  · simp
  · intro i h1 h2
    simp only [List.getElem_map, List.getElem_range]
    rw [Nat.zero_add, Nat.mod_eq_of_lt h2]
    simp [List.getD_eq_getElem?_getD, List.getElem?_eq_getElem h2]

/-! ### Claim theorems -/

/-- C1: for every sequence of items inserted into an unbounded FIFO engine
(any positive initial capacity) followed by as many removals, the removals
return exactly the inserted items in insertion order — growth events, both
linearising branches included — and the engine is then empty.  The witness
instantiates the concrete scenario: capacity 4, items 1..10. -/
theorem C1_fifo_order {T : Type} [Inhabited T] (c : Nat) (ds : List T)
    (hc : 0 < c) :
    ∃ b1 b2, fifoPutAll (NewFIFO 0 c) ds = some b1 ∧
      fifoGetN b1 ds.length = some (ds, b2) ∧ b2.size = 0 ∧
      b2.IsEmpty = true := by
  obtain ⟨b1, hput, hInv1, hm1, hList1⟩ :=
    fifoPutAll_ok ds (NewFIFO 0 c) (NewFIFO_Inv 0 c hc) rfl
  rw [NewFIFO_toList, List.nil_append] at hList1
  have hsz1 : b1.size = ds.length := by rw [← toList_length, hList1]
  obtain ⟨b2, hget, hInv2, hs2, _, _⟩ :=
    fifoGetN_ok ds.length b1 hInv1 (by omega)
  rw [hList1, List.take_length] at hget
  refine ⟨b1, b2, hput, hget, by omega, ?_⟩
  simp only [fifoBox.IsEmpty, decide_eq_true_eq]
  omega

theorem C1_fifo_order_witness :
    ∃ b1 b2,
      fifoPutAll (NewFIFO (T := Nat) 0 4) [1, 2, 3, 4, 5, 6, 7, 8, 9, 10] =
        some b1 ∧
      fifoGetN b1 ([1, 2, 3, 4, 5, 6, 7, 8, 9, 10] : List Nat).length =
        some ([1, 2, 3, 4, 5, 6, 7, 8, 9, 10], b2) ∧
      b2.size = 0 ∧ b2.IsEmpty = true :=
  C1_fifo_order 4 [1, 2, 3, 4, 5, 6, 7, 8, 9, 10] (by decide)

/-- C2: the claim says a zero initial capacity is coerced to a usable
positive capacity even through `NewFIFO` directly, and that growth always
yields a strictly positive capacity; the test `TestFIFOGrowWithZero` agrees.
The code disagrees: `NewFIFO(0, 0)` allocates a zero-length buffer, `grow`
doubles 0 to 0, and the first `Put` indexes an empty slice — a panic,
modelled as `none`.  (The factory path is coerced: `parseOptions` turns a
zero initial capacity into 8.)  This theorem evaluates the model at the
failing input. -/
theorem C2_zero_capacity_put_panics :
    (NewFIFO (T := Nat) 0 0).Put 7 = none ∧
      ((NewFIFO (T := Nat) 0 0).grow).items.length = 0 ∧
      (parseOptions [WithInitialCapacity 0]).initialCapacity = 8 := by
  refine ⟨rfl, rfl, rfl⟩

/-- C3: two random-pool engines built with the same fixed seed — whether
through the factory (where the time-based generator is ignored once a seed
is supplied) or directly — receiving the same insertion sequence and the
same number of `Get` calls produce identical removal sequences. -/
theorem C3_seed_determinism {T : Type} [Inhabited T] (s1 s2 : Int)
    (cap1 cap2 : Nat) (ds1 ds2 : List T) (n : Nat) (t1 t2 : Rng)
    (hs : s1 = s2) (hds : ds1 = ds2) :
    New (T := T) [WithStrategy Strategy.random, WithSeed s1] t1 =
      New (T := T) [WithStrategy Strategy.random, WithSeed s2] t2 ∧
    (randomPutAll (NewRandom 0 cap1 (mkRng s1)) ds1).map
        (fun b => randomGets b n) =
      (randomPutAll (NewRandom 0 cap2 (mkRng s2)) ds2).map
        (fun b => randomGets b n) := by
  subst hs hds
  exact ⟨rfl, rfl⟩

theorem C3_seed_determinism_witness :
    New (T := Nat) [WithStrategy Strategy.random, WithSeed 42] (mkRng 7) =
      New (T := Nat) [WithStrategy Strategy.random, WithSeed 42] (mkRng 9) ∧
    (randomPutAll (NewRandom (T := Nat) 0 8 (mkRng 42)) [1, 2, 3]).map
        (fun b => randomGets b 3) =
      (randomPutAll (NewRandom (T := Nat) 0 8 (mkRng 42)) [1, 2, 3]).map
        (fun b => randomGets b 3) :=
  C3_seed_determinism 42 42 8 8 [1, 2, 3] [1, 2, 3] 3 (mkRng 7) (mkRng 9)
    rfl rfl

/-- C4: for every N, every insertion sequence of length N into an unbounded
random-pool engine and every generator behaviour, the N removals return a
multiset equal to the multiset inserted, and the engine is then empty. -/
theorem C4_random_multiset {T : Type} [Inhabited T] (rng : Rng) (cap : Nat)
    (ds : List T) :
    ∃ b1 outs b2, randomPutAll (NewRandom 0 cap rng) ds = some b1 ∧
      b1.items = ds ∧ randomGetN b1 ds.length = some (outs, b2) ∧
      (outs : Multiset T) = (ds : Multiset T) ∧ b2.items = [] ∧
      b2.IsEmpty = true := by
  obtain ⟨b1, hput, hi, hm, _⟩ := randomPutAll_ok ds (NewRandom 0 cap rng) rfl
  rw [show (NewRandom (T := T) 0 cap rng).items = [] from rfl,
    List.nil_append] at hi
  obtain ⟨outs, b2, hget, hperm, hi2, hm2⟩ :=
    randomGetN_perm ds.length b1 (by rw [hi])
  refine ⟨b1, outs, b2, hput, hi, hget, ?_, hi2, ?_⟩
  · rw [Multiset.coe_eq_coe]
    exact hperm.trans (by rw [hi])
  · simp [randomBox.IsEmpty, hi2]

/-- C7: for every sequence of N items inserted into an unbounded LIFO engine
followed by N removals, the removals return the items in exactly reverse
insertion order; concretely, after inserting 1, 2, 3, `Peek` returns 3 with
the size still 3, the removals return 3, 2, 1, and a fourth removal returns
the container-empty error. -/
theorem C7_lifo_reverse {T : Type} [Inhabited T] (c : Nat) (ds : List T) :
    (∃ b1 b2, lifoPutAll (NewLIFO 0 c) ds = some b1 ∧
      lifoGetN b1 ds.length = some (ds.reverse, b2) ∧ b2.Size = 0 ∧
      (b2.Get).2.2 = some BoxErr.empty) ∧
    (∃ b1 b2, lifoPutAll (NewLIFO (T := Nat) 0 8) [1, 2, 3] = some b1 ∧
      b1.Peek = (3, none) ∧ b1.Size = 3 ∧
      lifoGetN b1 3 = some ([3, 2, 1], b2) ∧
      (b2.Get).2.2 = some BoxErr.empty) := by
  constructor
  · obtain ⟨b1, hput, hi, hm⟩ := lifoPutAll_ok ds (NewLIFO 0 c) rfl
    rw [show (NewLIFO (T := T) 0 c).items = [] from rfl,
      List.nil_append] at hi
    obtain ⟨b2, hget, hi2, hm2⟩ := lifoGetN_items b1.items b1.maxSize
    have heta : lifoBox.mk b1.items b1.maxSize = b1 := rfl
    rw [heta, hi] at hget
    refine ⟨b1, b2, hput, hget, ?_, ?_⟩
    · simp [lifoBox.Size, hi2]
    · simp [lifoBox.Get, hi2]
  · exact ⟨⟨[1, 2, 3], 0⟩, ⟨[], 0⟩, rfl, rfl, rfl, rfl, rfl⟩

/-! ### Error characterisations -/

theorem fifoGet_empty {b : fifoBox T} (h : b.size = 0) :
    b.Get = (b, default, some BoxErr.empty) := by
  unfold fifoBox.Get
  rw [if_pos h]

theorem fifo_error_spec (b : fifoBox T) (x : T) (hInv : b.Inv) :
    ((b.maxSize > 0 ∧ (b.size : Int) ≥ b.maxSize) →
      b.Put x = some (b, some BoxErr.full)) ∧
    (∀ r e, b.Put x = some r → r.2 = some e →
      e = BoxErr.full ∧ r.1 = b ∧ b.maxSize > 0 ∧ (b.size : Int) ≥ b.maxSize) ∧
    (∀ e, (b.Get).2.2 = some e ↔ e = BoxErr.empty ∧ b.size = 0) ∧
    (∀ e, (b.Peek).2 = some e ↔ e = BoxErr.empty ∧ b.size = 0) ∧
    (b.size = 0 → (b.Get).1 = b) ∧
    (b.maxSize > 0 → (b.size : Int) = b.maxSize →
      ∃ b', (b.Get).1.Put x = some (b', none)) := by
  refine ⟨Put_full x, ?_, ?_, ?_, ?_, ?_⟩
  · intro r e hr he
    by_cases hc : b.maxSize > 0 ∧ (b.size : Int) ≥ b.maxSize
    · rw [Put_full x hc] at hr
      injection hr with h2
      subst h2
      simp only at he
      injection he with h3
      exact ⟨h3.symm, rfl, hc.1, hc.2⟩
    · obtain ⟨b', hput, _⟩ := Put_ok hInv x hc
      rw [hput] at hr
      injection hr with h2
      subst h2
      simp at he
  · intro e
    by_cases h0 : b.size = 0
    · rw [fifoGet_empty h0]
      simp [h0, eq_comm]
    · obtain ⟨y, b1, hget, _⟩ := Get_ok hInv h0
      rw [hget]
      simp [h0]
  · intro e
    unfold fifoBox.Peek
    by_cases h0 : b.size = 0 <;> simp [h0, eq_comm]
  · intro h0
    rw [fifoGet_empty h0]
  · intro hm hsz
    have hs0 : b.size ≠ 0 := by omega
    obtain ⟨y, b1, hget, hInv1, _, hs1, hm1, _⟩ := Get_ok hInv hs0
    rw [hget]
    obtain ⟨b', hput, _⟩ := Put_ok hInv1 x (by rw [hm1, hs1]; omega)
    exact ⟨b', hput⟩

theorem lifo_error_spec (b : lifoBox T) (x : T) :
    (∀ e, (b.Put x).2 = some e ↔
      e = BoxErr.full ∧ b.maxSize > 0 ∧ (b.items.length : Int) ≥ b.maxSize) ∧
    (∀ e, (b.Put x).2 = some e → (b.Put x).1 = b) ∧
    (∀ e, (b.Get).2.2 = some e ↔ e = BoxErr.empty ∧ b.items.length = 0) ∧
    (∀ e, (b.Peek).2 = some e ↔ e = BoxErr.empty ∧ b.items.length = 0) ∧
    (b.items.length = 0 → (b.Get).1 = b) ∧
    (b.maxSize > 0 → (b.items.length : Int) = b.maxSize →
      ((b.Get).1.Put x).2 = none) := by
  refine ⟨?_, ?_, ?_, ?_, ?_, ?_⟩
  · intro e
    unfold lifoBox.Put
    by_cases hc : b.maxSize > 0 ∧ (b.items.length : Int) ≥ b.maxSize <;>
      simp [hc, eq_comm]
  · intro e
    unfold lifoBox.Put
    by_cases hc : b.maxSize > 0 ∧ (b.items.length : Int) ≥ b.maxSize <;>
      simp [hc]
  · intro e
    unfold lifoBox.Get
    by_cases h0 : b.items.length = 0 <;> simp [h0, eq_comm]
  · intro e
    unfold lifoBox.Peek
    by_cases h0 : b.items.length = 0 <;> simp [h0, eq_comm]
  · intro h0
    unfold lifoBox.Get
    rw [if_pos h0]
  · intro hm hsz
    have h0 : ¬ b.items.length = 0 := by omega
    unfold lifoBox.Get
    rw [if_neg h0]
    unfold lifoBox.Put
    rw [if_neg (by simp; omega)]

theorem random_error_spec (b : randomBox T) (x : T) :
    (∀ e, (b.Put x).2 = some e ↔
      e = BoxErr.full ∧ b.maxSize > 0 ∧ (b.items.length : Int) ≥ b.maxSize) ∧
    (∀ e, (b.Put x).2 = some e → (b.Put x).1 = b) ∧
    (∀ e, (b.Get).2.2 = some e ↔ e = BoxErr.empty ∧ b.items.length = 0) ∧
    (∀ e, (b.Peek).2.2 = some e ↔ e = BoxErr.empty ∧ b.items.length = 0) ∧
    (b.items.length = 0 → (b.Get).1 = b) ∧
    (b.items.length = 0 → (b.Peek).1 = b) ∧
    (b.maxSize > 0 → (b.items.length : Int) = b.maxSize →
      ((b.Get).1.Put x).2 = none) := by
  refine ⟨?_, ?_, ?_, ?_, ?_, ?_, ?_⟩
  · intro e
    unfold randomBox.Put
    by_cases hc : b.maxSize > 0 ∧ (b.items.length : Int) ≥ b.maxSize <;>
      simp [hc, eq_comm]
  · intro e
    unfold randomBox.Put
    by_cases hc : b.maxSize > 0 ∧ (b.items.length : Int) ≥ b.maxSize <;>
      simp [hc]
  · intro e
    unfold randomBox.Get
    by_cases h0 : b.items.length = 0 <;> simp [h0, eq_comm]
  · intro e
    unfold randomBox.Peek
    by_cases h0 : b.items.length = 0 <;> simp [h0, eq_comm]
  · intro h0
    unfold randomBox.Get
    rw [if_pos h0]
  · intro h0
    unfold randomBox.Peek
    rw [if_pos h0]
  · intro hm hsz
    have h0 : ¬ b.items.length = 0 := by omega
    unfold randomBox.Get
    rw [if_neg h0]
    unfold randomBox.Put
    rw [if_neg (by simp; omega)]



theorem C4_random_multiset_witness :
    ∃ b1 outs b2,
      randomPutAll (NewRandom (T := Nat) 0 8 (mkRng 0)) [1, 2, 3] =
        some b1 ∧
      b1.items = [1, 2, 3] ∧
      randomGetN b1 ([1, 2, 3] : List Nat).length = some (outs, b2) ∧
      (outs : Multiset Nat) = (([1, 2, 3] : List Nat) : Multiset Nat) ∧
      b2.items = [] ∧ b2.IsEmpty = true :=
  C4_random_multiset (mkRng 0) 8 [1, 2, 3]

theorem C7_lifo_reverse_witness :
    ∃ b1 b2, lifoPutAll (NewLIFO (T := Nat) 0 8) [4, 5, 6] = some b1 ∧
      lifoGetN b1 ([4, 5, 6] : List Nat).length =
        some (([4, 5, 6] : List Nat).reverse, b2) ∧
      b2.Size = 0 ∧ (b2.Get).2.2 = some BoxErr.empty :=
  (C7_lifo_reverse 8 [4, 5, 6]).1

/-- C5: for every engine, `Put` returns the container-full error exactly when
a positive maximum size is configured and the logical size has reached it;
`Get` and `Peek` return the container-empty error exactly when the logical
size is 0; these are the only errors; every erroring call leaves the state
unchanged (for the queue this holds under the ring invariant, which all
reachable states satisfy); and after one removal from a full container
(`size = maxSize`) a further insert succeeds. -/
theorem C5_error_contract {T : Type} [Inhabited T] (bf : fifoBox T)
    (bl : lifoBox T) (br : randomBox T) (x : T) (hInv : bf.Inv) :
    (((bf.maxSize > 0 ∧ (bf.size : Int) ≥ bf.maxSize) →
        bf.Put x = some (bf, some BoxErr.full)) ∧
      (∀ r e, bf.Put x = some r → r.2 = some e →
        e = BoxErr.full ∧ r.1 = bf ∧ bf.maxSize > 0 ∧
          (bf.size : Int) ≥ bf.maxSize) ∧
      (∀ e, (bf.Get).2.2 = some e ↔ e = BoxErr.empty ∧ bf.size = 0) ∧
      (∀ e, (bf.Peek).2 = some e ↔ e = BoxErr.empty ∧ bf.size = 0) ∧
      (bf.size = 0 → (bf.Get).1 = bf) ∧
      (bf.maxSize > 0 → (bf.size : Int) = bf.maxSize →
        ∃ b', (bf.Get).1.Put x = some (b', none))) ∧
    ((∀ e, (bl.Put x).2 = some e ↔
        e = BoxErr.full ∧ bl.maxSize > 0 ∧
          (bl.items.length : Int) ≥ bl.maxSize) ∧
      (∀ e, (bl.Put x).2 = some e → (bl.Put x).1 = bl) ∧
      (∀ e, (bl.Get).2.2 = some e ↔ e = BoxErr.empty ∧
        bl.items.length = 0) ∧
      (∀ e, (bl.Peek).2 = some e ↔ e = BoxErr.empty ∧
        bl.items.length = 0) ∧
      (bl.items.length = 0 → (bl.Get).1 = bl) ∧
      (bl.maxSize > 0 → (bl.items.length : Int) = bl.maxSize →
        ((bl.Get).1.Put x).2 = none)) ∧
    ((∀ e, (br.Put x).2 = some e ↔
        e = BoxErr.full ∧ br.maxSize > 0 ∧
          (br.items.length : Int) ≥ br.maxSize) ∧
      (∀ e, (br.Put x).2 = some e → (br.Put x).1 = br) ∧
      (∀ e, (br.Get).2.2 = some e ↔ e = BoxErr.empty ∧
        br.items.length = 0) ∧
      (∀ e, (br.Peek).2.2 = some e ↔ e = BoxErr.empty ∧
        br.items.length = 0) ∧
      (br.items.length = 0 → (br.Get).1 = br) ∧
      (br.items.length = 0 → (br.Peek).1 = br) ∧
      (br.maxSize > 0 → (br.items.length : Int) = br.maxSize →
        ((br.Get).1.Put x).2 = none)) :=
  ⟨fifo_error_spec bf x hInv, lifo_error_spec bl x, random_error_spec br x⟩

theorem C5_error_contract_witness :
    ((NewFIFO (T := Nat) 0 4).Get).2.2 = some BoxErr.empty := by
  have h := C5_error_contract (NewFIFO (T := Nat) 0 4) (NewLIFO 0 4)
    (NewRandom 0 4 (mkRng 1)) 0 (by decide)
  exact (h.1.2.2.1 BoxErr.empty).mpr ⟨rfl, rfl⟩

/-- C6: building a container from items `data` while requesting a positive
maximum size `m` smaller than the item count succeeds under every strategy:
the effective maximum is silently widened to the item count, all items are
present (the data is not truncated), and the configuration is not
rejected. -/
theorem C6_newfrom_widening {T : Type} [Inhabited T] (data : List T) (m : Int)
    (st : Strategy) (timeRng : Rng) (hm : 0 < m)
    (hlt : m < (data.length : Int)) :
    (NewFrom data [WithStrategy st, WithMaxSize m] timeRng).MaxSize =
      (data.length : Int) ∧
    (NewFrom data [WithStrategy st, WithMaxSize m] timeRng).liveItems =
      data ∧
    (NewFrom data [WithStrategy st, WithMaxSize m] timeRng).Size =
      data.length := by
  have hcfg : parseOptions [WithStrategy st, WithMaxSize m] =
      ⟨st, m, 8, 0, false, true⟩ := rfl
  unfold NewFrom
  rw [hcfg]
  dsimp only
  rw [if_pos ⟨hm, hlt⟩]
  cases st with
  | fifo =>
    simp only [AnyBox.MaxSize, AnyBox.liveItems, AnyBox.Size,
      fifoBox.MaxSize, fifoBox.Size]
    refine ⟨?_, NewFIFOFrom_toList data _, ?_⟩
    · unfold NewFIFOFrom
      dsimp only
      rw [if_neg (by simp)]
    · rfl
  | lifo =>
    simp only [AnyBox.MaxSize, AnyBox.liveItems, AnyBox.Size,
      lifoBox.MaxSize, lifoBox.Size]
    refine ⟨?_, rfl, rfl⟩
    unfold NewLIFOFrom
    dsimp only
    rw [if_neg (by simp)]
  | random =>
    simp only [AnyBox.MaxSize, AnyBox.liveItems, AnyBox.Size,
      randomBox.MaxSize, randomBox.Size]
    refine ⟨?_, rfl, rfl⟩
    unfold NewRandomFrom
    dsimp only
    rw [if_neg (by simp)]

theorem C6_newfrom_widening_witness :
    (NewFrom (T := Nat) [10, 20, 30]
        [WithStrategy Strategy.random, WithMaxSize 1] (mkRng 5)).MaxSize =
      ((3 : Nat) : Int) ∧
    (NewFrom (T := Nat) [10, 20, 30]
        [WithStrategy Strategy.random, WithMaxSize 1] (mkRng 5)).liveItems =
      [10, 20, 30] ∧
    (NewFrom (T := Nat) [10, 20, 30]
        [WithStrategy Strategy.random, WithMaxSize 1] (mkRng 5)).Size = 3 :=
  C6_newfrom_widening [10, 20, 30] 1 Strategy.random (mkRng 5) (by decide)
    (by decide)

/-- C8: every operation of the queue engine preserves the ring-buffer
invariant: `Put` (growth step included) returns a state satisfying it both
on success and on the container-full error, `Get` preserves it both on
success and on the container-empty error, and `Clean` re-establishes it.
`Peek` does not write any receiver field in the source, so its embedding
returns no modified state and there is nothing to preserve. -/
theorem C8_fifo_invariant_preserved {T : Type} [Inhabited T] (b : fifoBox T)
    (x : T) (hInv : b.Inv) :
    (∃ r, b.Put x = some r ∧ r.1.Inv) ∧ (b.Get).1.Inv ∧ b.Clean.Inv := by
  refine ⟨?_, ?_, ?_⟩
  · by_cases hc : b.maxSize > 0 ∧ (b.size : Int) ≥ b.maxSize
    · exact ⟨(b, some BoxErr.full), Put_full x hc, hInv⟩
    · obtain ⟨b', hput, hInv', _⟩ := Put_ok hInv x hc
      exact ⟨(b', none), hput, hInv'⟩
  · by_cases h0 : b.size = 0
    · rw [fifoGet_empty h0]
      exact hInv
    · obtain ⟨y, b1, hget, hInv1, _⟩ := Get_ok hInv h0
      rw [hget]
      exact hInv1
  · obtain ⟨hlen, _, _, _, _⟩ := hInv
    unfold fifoBox.Clean fifoBox.Inv
    simp [cleanSlots_length, hlen]

theorem C8_fifo_invariant_preserved_witness :
    (∃ r, (NewFIFO (T := Nat) 0 4).Put 0 = some r ∧ r.1.Inv) ∧
      ((NewFIFO (T := Nat) 0 4).Get).1.Inv ∧
      (NewFIFO (T := Nat) 0 4).Clean.Inv :=
  C8_fifo_invariant_preserved (NewFIFO 0 4) 0 (by decide)

/-- C9: clearing an empty container is an (observational) no-op — for the
queue the items, size, maximum size and live-item view are untouched, only
the already-irrelevant `head`/`tail` cursors are reset; for stack and
random pool it is literally the identity — clearing is idempotent, after a
clear the size is 0 and `Peek`/`Get` return the container-empty error, and
for the queue `Clean` resets `head` and `tail` to 0 without releasing the
backing capacity. -/
theorem C9_clean_semantics {T : Type} [Inhabited T] (bf : fifoBox T)
    (bl : lifoBox T) (br : randomBox T) :
    (bf.size = 0 → bf.Clean.items = bf.items ∧ bf.Clean.size = bf.size ∧
      bf.Clean.maxSize = bf.maxSize ∧ bf.Clean.toList = bf.toList) ∧
    bf.Clean.Clean = bf.Clean ∧ bf.Clean.size = 0 ∧ bf.Clean.head = 0 ∧
    bf.Clean.tail = 0 ∧ bf.Clean.items.length = bf.items.length ∧
    (bf.Clean.Peek).2 = some BoxErr.empty ∧
    (bf.Clean.Get).2.2 = some BoxErr.empty ∧
    (bl.items = [] → bl.Clean = bl) ∧ bl.Clean.Clean = bl.Clean ∧
    bl.Clean.Size = 0 ∧ (bl.Clean.Peek).2 = some BoxErr.empty ∧
    (bl.Clean.Get).2.2 = some BoxErr.empty ∧
    (br.items = [] → br.Clean = br) ∧ br.Clean.Clean = br.Clean ∧
    br.Clean.Size = 0 ∧ (br.Clean.Peek).2.2 = some BoxErr.empty ∧
    (br.Clean.Get).2.2 = some BoxErr.empty := by
  refine ⟨?_, rfl, rfl, rfl, rfl, ?_, rfl, rfl, ?_, rfl, rfl, rfl, rfl,
    ?_, rfl, rfl, rfl, rfl⟩
  · intro h
    rw [fifoBox.Clean, h]
    exact ⟨rfl, rfl, rfl, (toList_nil _ rfl).trans (toList_nil bf h).symm⟩
  · rw [fifoBox.Clean]
    exact cleanSlots_length bf.items bf.head bf.size
  · intro h
    cases bl
    simp_all [lifoBox.Clean]
  · intro h
    cases br
    simp_all [randomBox.Clean]

theorem C9_clean_semantics_witness :
    ((NewFIFO (T := Nat) 0 4).Clean.Peek).2 = some BoxErr.empty ∧
      (NewLIFO (T := Nat) 0 4).Clean.Clean = (NewLIFO (T := Nat) 0 4).Clean :=
  ⟨(C9_clean_semantics (NewFIFO (T := Nat) 0 4) (NewLIFO 0 4)
      (NewRandom 0 4 (mkRng 1))).2.2.2.2.2.2.1,
    (C9_clean_semantics (NewFIFO (T := Nat) 0 4) (NewLIFO 0 4)
      (NewRandom 0 4 (mkRng 1))).2.2.2.2.2.2.2.2.2.1⟩

/-- C10: a successful random-pool `Peek` consumes one draw from the same
generator `Get` uses — its returned state has the generator advanced by one
position with the items untouched — and there are two engines built with
the same fixed seed and the same insertions (here seed 0 and items 1, 2)
where one extra `Peek` changes the subsequent removal sequence, so the
seed-determinism contract requires the full `Peek`/`Get` interleaving to
match. -/
theorem C10_peek_consumes_draw {T : Type} [Inhabited T] :
    (∀ b : randomBox T, b.items ≠ [] →
      (b.Peek).1.rng.pos = b.rng.pos + 1 ∧ (b.Peek).1.items = b.items) ∧
    (∃ b1 : randomBox Nat,
      randomPutAll (NewRandom 0 8 (mkRng 0)) [1, 2] = some b1 ∧
      (randomGets ((b1.Peek).1) 2).map Prod.fst ≠
        (randomGets b1 2).map Prod.fst) := by
  constructor
  · intro b hb
    unfold randomBox.Peek
    rw [if_neg (by simpa using hb)]
    exact ⟨rfl, rfl⟩
  · refine ⟨⟨[1, 2], mkRng 0, 0⟩, rfl, ?_⟩
    decide

theorem C10_peek_consumes_draw_witness :
    (((⟨[5, 6], mkRng 3, 0⟩ : randomBox Nat).Peek).1.rng.pos =
        (⟨[5, 6], mkRng 3, 0⟩ : randomBox Nat).rng.pos + 1) ∧
      ((⟨[5, 6], mkRng 3, 0⟩ : randomBox Nat).Peek).1.items = [5, 6] :=
  (C10_peek_consumes_draw (T := Nat)).1 ⟨[5, 6], mkRng 3, 0⟩ (by decide)

end Blackbox
